import Mathlib

/-!
Verification of the bpg border-producing gizmo: a shallow embedding of the
ratio-approximation, dimension-adjustment, compositing and batch pipeline
from src/process.rs and src/main.rs, with theorems settling the spec claims.

Rust Ratio values of type Ratio of u32 are always kept reduced by the num
crate, so two Ratio values are equal exactly when they denote the same
rational number; we embed them as Lean rationals.  The u32 dimensions are
embedded as naturals; the one place where unsigned wraparound is reachable
(the offset subtraction in add_border) is modelled with an explicit guard
returning none, matching the checked-arithmetic panic.
-/

namespace Bpg

/-- Seed proximity used by the reduce in approximation: Ratio.from_integer
of the largest u32, from src/process.rs line 145. -/
def u32MAX : ℚ := 4294967295

/-- Embedding of proximity from src/process.rs lines 165 to 173: the check
value is a times the reciprocal of b, and the result is check minus one when
check exceeds one, else one minus check.  The Rust code panics when b is
zero (recip of zero); theorems therefore assume b is nonzero. -/
def proximity (a b : ℚ) : ℚ :=
  if 1 < a * b⁻¹ then a * b⁻¹ - 1 else 1 - a * b⁻¹

/-- The combining operation of the reduce in approximation, src/process.rs
lines 146 to 152: keep b only when its proximity is strictly smaller. -/
def step (a b : ℚ × ℚ) : ℚ × ℚ :=
  if b.2 < a.2 then b else a

/-- Embedding of approximation from src/process.rs lines 139 to 155.  The
rayon reduce pairs every option with its proximity to the raw ratio and
combines with step starting from the identity pair of the raw ratio and
u32MAX; since step is a left-biased argmin this equals the sequential left
fold, which is what the deterministic first-seen tie-break requires. -/
def approximation (dims : ℕ × ℕ) (options : List ℚ) : ℚ :=
  let raw : ℚ := (dims.1 : ℚ) / (dims.2 : ℚ)
  ((options.map (fun o => (o, proximity o raw))).foldl step (raw, u32MAX)).1

/-- The common aspect ratios catalog from src/process.rs lines 15 to 27. -/
def COMMON_RATIOS : List ℚ :=
  [1, 3/2, 2/3, 4/3, 3/4, 4/5, 5/4, 16/9, 9/16]

/-- Embedding of adjust from src/process.rs lines 113 to 127.  A reduced
Rust ratio with numerator n and denominator d corresponds to the rational q
with q.num = n and q.den = d; multiplication happens before the truncating
division, as in the source. -/
def adjust (dims : ℕ × ℕ) (border : ℕ) (q : ℚ) : ℕ × ℕ :=
  if dims.2 < dims.1 then
    let new_w := dims.1 + border
    (new_w, new_w * q.den / q.num.toNat)
  else
    let new_h := dims.2 + border
    (new_h * q.num.toNat / q.den, new_h)

/-- The ratio-selection step of process_and_save_local, src/process.rs
lines 50 to 59: a forced ratio with forced orientation is used as is; a
forced ratio without forced orientation is approximated over the pair of
the ratio and its reciprocal, in that order; with no forced ratio the
common catalog is used. -/
def final_ratio (dims : ℕ × ℕ) (force_ratio : Option ℚ)
    (force_orientation : Bool) : ℚ :=
  match force_ratio with
  | some q => if force_orientation then q else approximation dims [q, q⁻¹]
  | none => approximation dims COMMON_RATIOS

/-- The left fold of step either keeps the accumulator, when no listed
proximity beats it, or lands on the first list entry attaining the strict
minimum among entries strictly better than the accumulator. -/
theorem foldl_step_spec (l : List (ℚ × ℚ)) (acc : ℚ × ℚ) :
    (l.foldl step acc = acc ∧ ∀ p ∈ l, acc.2 ≤ p.2) ∨
    (∃ i, ∃ hi : i < l.length, l.foldl step acc = l.get ⟨i, hi⟩ ∧
      (l.get ⟨i, hi⟩).2 < acc.2 ∧
      (∀ p ∈ l, (l.get ⟨i, hi⟩).2 ≤ p.2) ∧
      ∀ j, ∀ hj : j < l.length, j < i →
        (l.get ⟨i, hi⟩).2 < (l.get ⟨j, hj⟩).2) := by
  induction l generalizing acc with
  | nil =>
      left
      exact ⟨rfl, by simp⟩
  | cons p t ih =>
      rw [List.foldl_cons]
      by_cases hp : p.2 < acc.2
      · rw [show step acc p = p by simp [step, hp]]
        rcases ih p with ⟨heq, hmin⟩ | ⟨i, hi, heq, hlt, hmin, hfirst⟩
        · right
          refine ⟨0, by simp, heq, hp, ?_, ?_⟩
          · intro q hq
            rcases List.mem_cons.mp hq with hq | hq
            · subst hq; exact le_refl _
            · exact hmin q hq
          · intro j hj hj0
            omega
        · right
          refine ⟨i + 1, by simpa using Nat.succ_lt_succ hi, heq, lt_trans hlt hp,
            ?_, ?_⟩
          · intro q hq
            rcases List.mem_cons.mp hq with hq | hq
            · subst hq; exact le_of_lt hlt
            · exact hmin q hq
          · intro j hj hji
            match j, hj with
            | 0, hj => exact hlt
            | Nat.succ k, hj =>
                exact hfirst k (Nat.lt_of_succ_lt_succ hj) (Nat.lt_of_succ_lt_succ hji)
      · rw [show step acc p = acc by simp [step, hp]]
        have hle : acc.2 ≤ p.2 := not_lt.mp hp
        rcases ih acc with ⟨heq, hmin⟩ | ⟨i, hi, heq, hlt, hmin, hfirst⟩
        · left
          refine ⟨heq, ?_⟩
          intro q hq
          rcases List.mem_cons.mp hq with hq | hq
          · subst hq; exact hle
          · exact hmin q hq
        · right
          refine ⟨i + 1, by simpa using Nat.succ_lt_succ hi, heq, hlt, ?_, ?_⟩
          · intro q hq
            rcases List.mem_cons.mp hq with hq | hq
            · subst hq; exact le_of_lt (lt_of_lt_of_le hlt hle)
            · exact hmin q hq
          · intro j hj hji
            match j, hj with
            | 0, hj => exact lt_of_lt_of_le hlt hle
            | Nat.succ k, hj =>
                exact hfirst k (Nat.lt_of_succ_lt_succ hj) (Nat.lt_of_succ_lt_succ hji)

/-- Claim C1: on a non-empty candidate list whose proximities stay below the
u32MAX seed (which is forced in every run of the Rust code that does not
overflow, since a reduced u32 check value num over den gives proximity at
most num minus one), approximation returns the earliest candidate attaining
the minimum proximity to the raw ratio; and at the spec examples,
approximation of dims (14, 18) over 13 over 18 then 15 over 18 gives
13 over 18, while the reversed list gives 5 over 6. -/
theorem approximation_min_first_seen (w h : ℕ) (options : List ℚ)
    (hne : options ≠ [])
    (hbound : ∀ c ∈ options, proximity c ((w : ℚ) / (h : ℚ)) < u32MAX) :
    (∃ i, ∃ hi : i < options.length,
      approximation (w, h) options = options.get ⟨i, hi⟩ ∧
      (∀ c ∈ options, proximity (options.get ⟨i, hi⟩) ((w : ℚ) / (h : ℚ)) ≤
        proximity c ((w : ℚ) / (h : ℚ))) ∧
      ∀ j, ∀ hj : j < options.length, j < i →
        proximity (options.get ⟨i, hi⟩) ((w : ℚ) / (h : ℚ)) <
          proximity (options.get ⟨j, hj⟩) ((w : ℚ) / (h : ℚ))) ∧
    approximation (14, 18) [13/18, 15/18] = 13/18 ∧
    approximation (14, 18) [15/18, 13/18] = 5/6 := by
  refine ⟨?_, by norm_num [approximation, proximity, step, u32MAX],
    by norm_num [approximation, proximity, step, u32MAX]⟩
  have hspec := foldl_step_spec
    (options.map fun o => (o, proximity o ((w : ℚ) / (h : ℚ))))
    (((w : ℚ) / (h : ℚ)), u32MAX)
  rcases hspec with ⟨heq, hmin⟩ | ⟨i, hi, heq, hlt, hmin, hfirst⟩
  · exfalso
    rcases List.exists_mem_of_ne_nil options hne with ⟨c, hc⟩
    have : u32MAX ≤ proximity c ((w : ℚ) / (h : ℚ)) :=
      hmin _ (List.mem_map_of_mem _ hc)
    exact absurd (hbound c hc) (not_lt.mpr this)
  · have hi' : i < options.length := by simpa using hi
    have hget : (options.map fun o => (o, proximity o ((w : ℚ) / (h : ℚ)))).get ⟨i, hi⟩ =
        (options.get ⟨i, hi'⟩, proximity (options.get ⟨i, hi'⟩) ((w : ℚ) / (h : ℚ))) := by
      simp [List.get_eq_getElem]
    refine ⟨i, hi', ?_, ?_, ?_⟩
    · show (_ : ℚ × ℚ).1 = _
      rw [heq, hget]
    · intro c hc
      have := hmin _ (List.mem_map_of_mem _ hc)
      rwa [hget] at this
    · intro j hj hji
      have hj' : j < (options.map fun o =>
          (o, proximity o ((w : ℚ) / (h : ℚ)))).length := by simpa using hj
      have := hfirst j hj' hji
      rw [hget] at this
      have hgetj : (options.map fun o => (o, proximity o ((w : ℚ) / (h : ℚ)))).get ⟨j, hj'⟩ =
          (options.get ⟨j, hj⟩, proximity (options.get ⟨j, hj⟩) ((w : ℚ) / (h : ℚ))) := by
        simp [List.get_eq_getElem]
      rwa [hgetj] at this

/-- Witness for C1 at dims (14, 18) and candidates 13 over 18 then
15 over 18: the first candidate is returned with index zero. -/
theorem approximation_min_first_seen_witness :
    ([(13:ℚ)/18, 15/18] ≠ [] ∧
      ∀ c ∈ [(13:ℚ)/18, 15/18], proximity c ((14 : ℚ) / (18 : ℚ)) < u32MAX) ∧
    approximation (14, 18) [13/18, 15/18] = 13/18 := by
  have h1 : ([(13:ℚ)/18, 15/18] : List ℚ) ≠ [] := by simp
  have h2 : ∀ c ∈ [(13:ℚ)/18, 15/18], proximity c ((14 : ℚ) / (18 : ℚ)) < u32MAX := by
    intro c hc
    rcases List.mem_cons.mp hc with hc | hc
    · subst hc; norm_num [proximity, u32MAX]
    · rcases List.mem_cons.mp hc with hc | hc
      · subst hc; norm_num [proximity, u32MAX]
      · simp at hc
  exact ⟨⟨h1, h2⟩,
    (approximation_min_first_seen 14 18 [(13:ℚ)/18, 15/18] h1 h2).2.1⟩

/-- Claim C2: for ratios a and b with b nonzero (a zero b makes the Rust
recip panic), proximity is check minus one when check, the exact product of
a and the reciprocal of b, exceeds one, and one minus check otherwise; the
metric is asymmetric, with proximity of 2 over 1 against 4 over 1 equal to
one half but one in the other direction, and zero in both directions on the
equal ratios 2 over 3 and 4 over 6. -/
theorem proximity_spec :
    (∀ a b : ℚ, 0 < b →
      (1 < a * b⁻¹ → proximity a b = a * b⁻¹ - 1) ∧
      (a * b⁻¹ ≤ 1 → proximity a b = 1 - a * b⁻¹)) ∧
    proximity (2/1) (4/1) = 1/2 ∧ proximity (4/1) (2/1) = 1 ∧
    proximity (2/3) (4/6) = 0 ∧ proximity (4/6) (2/3) = 0 := by
  refine ⟨?_, by norm_num [proximity], by norm_num [proximity],
    by norm_num [proximity], by norm_num [proximity]⟩
  intro a b _
  constructor
  · intro hgt
    simp [proximity, hgt]
  · intro hle
    rw [proximity, if_neg (not_lt.mpr hle)]

/-- Witness for C2 at a equal 2 over 1 and b equal 4 over 1. -/
theorem proximity_spec_witness :
    0 < (4/1 : ℚ) ∧
    ((1 < (2/1 : ℚ) * (4/1 : ℚ)⁻¹ →
        proximity (2/1) (4/1) = (2/1 : ℚ) * (4/1 : ℚ)⁻¹ - 1) ∧
      ((2/1 : ℚ) * (4/1 : ℚ)⁻¹ ≤ 1 →
        proximity (2/1) (4/1) = 1 - (2/1 : ℚ) * (4/1 : ℚ)⁻¹)) :=
  ⟨by norm_num, proximity_spec.1 (2/1) (4/1) (by norm_num)⟩

/-- Claim C3: for a positive ratio q (numerator or denominator zero is a
division-by-zero panic in Rust, a documented precondition violation), when
width exceeds height the adjusted dimensions are width plus border paired
with that sum times the denominator of q truncation-divided by the
numerator, and otherwise the height branch holds symmetrically; with the
three concrete spec examples. -/
theorem adjust_spec :
    (∀ w h border : ℕ, ∀ q : ℚ, 0 < q →
      (h < w → adjust (w, h) border q =
        (w + border, (w + border) * q.den / q.num.toNat)) ∧
      (w ≤ h → adjust (w, h) border q =
        ((h + border) * q.num.toNat / q.den, h + border))) ∧
    adjust (20, 30) 10 (3/4) = (30, 40) ∧
    adjust (30, 20) 10 (1/1) = (40, 40) ∧
    adjust (0, 0) 10 (1/10) = (1, 10) := by
  refine ⟨?_, by norm_num [adjust]; decide, by norm_num [adjust],
    by norm_num [adjust]⟩
  intro w h border q _
  constructor
  · intro hlt
    simp [adjust, hlt]
  · intro hle
    rw [adjust, if_neg (by simpa using Nat.not_lt.mpr hle)]

/-- Witness for C3 at dims (20, 30), border 10, ratio 3 over 4. -/
theorem adjust_spec_witness :
    0 < (3/4 : ℚ) ∧
    ((30 < 20 → adjust (20, 30) 10 (3/4) =
        (20 + 10, (20 + 10) * (3/4 : ℚ).den / (3/4 : ℚ).num.toNat)) ∧
      (20 ≤ 30 → adjust (20, 30) 10 (3/4) =
        ((30 + 10) * (3/4 : ℚ).num.toNat / (3/4 : ℚ).den, 30 + 10))) :=
  ⟨by norm_num, (adjust_spec.1 20 30 10 (3/4) (by norm_num))⟩

/-- Claim C8: approximation of any dimensions with positive height (height
zero makes the Rust Ratio constructor panic) over the empty candidate list
is the raw ratio of the dimensions, and at dims (14, 18) that raw ratio is
7 over 9, the reduced form of 14 over 18. -/
theorem approximation_empty (w h : ℕ) (hpos : 0 < h) :
    approximation (w, h) [] = (w : ℚ) / (h : ℚ) ∧
    approximation (14, 18) [] = 7/9 := by
  constructor
  · simp [approximation]
  · norm_num [approximation]

/-- Witness for C8 at dims (14, 18). -/
theorem approximation_empty_witness :
    0 < 18 ∧ approximation (14, 18) [] = (14 : ℚ) / (18 : ℚ) :=
  ⟨by norm_num, (approximation_empty 14 18 (by norm_num)).1⟩

/-- Claim C7: with a forced ratio and forced orientation the chosen ratio
is exactly the forced ratio; with a forced ratio alone the candidate list
handed to approximation is exactly the forced ratio followed by its
reciprocal, so the outcome is the reciprocal only when its proximity is
strictly smaller, the forced ratio winning ties as the earlier entry (the
proximity bound below holds in every non-overflowing run, as in C1). -/
theorem final_ratio_forced (dims : ℕ × ℕ) (q : ℚ)
    (hbound : proximity q ((dims.1 : ℚ) / (dims.2 : ℚ)) < u32MAX) :
    final_ratio dims (some q) true = q ∧
    final_ratio dims (some q) false = approximation dims [q, q⁻¹] ∧
    final_ratio dims (some q) false =
      (if proximity q⁻¹ ((dims.1 : ℚ) / (dims.2 : ℚ)) <
          proximity q ((dims.1 : ℚ) / (dims.2 : ℚ))
        then q⁻¹ else q) := by
  refine ⟨rfl, rfl, ?_⟩
  show (([q, q⁻¹].map fun o =>
      (o, proximity o ((dims.1 : ℚ) / (dims.2 : ℚ)))).foldl step
      (((dims.1 : ℚ) / (dims.2 : ℚ)), u32MAX)).1 = _
  rw [List.map_cons, List.map_cons, List.map_nil, List.foldl_cons,
    List.foldl_cons, List.foldl_nil,
    show step (((dims.1 : ℚ) / (dims.2 : ℚ)), u32MAX)
        (q, proximity q ((dims.1 : ℚ) / (dims.2 : ℚ))) =
      (q, proximity q ((dims.1 : ℚ) / (dims.2 : ℚ))) from by simp [step, hbound]]
  by_cases hflip : proximity q⁻¹ ((dims.1 : ℚ) / (dims.2 : ℚ)) <
      proximity q ((dims.1 : ℚ) / (dims.2 : ℚ)) <;>
    simp [step, hflip]

/-- Witness for C7 at dims (50, 100) and forced ratio 10: the orientation
is not forced, so the reciprocal 1 over 10, strictly closer to the raw
ratio 1 over 2, is selected. -/
theorem final_ratio_forced_witness :
    proximity (10/1) ((50 : ℚ) / (100 : ℚ)) < u32MAX ∧
    final_ratio (50, 100) (some (10/1)) true = 10/1 ∧
    final_ratio (50, 100) (some (10/1)) false =
      (if proximity (10/1 : ℚ)⁻¹ ((50 : ℚ) / (100 : ℚ)) <
          proximity (10/1) ((50 : ℚ) / (100 : ℚ))
        then (10/1 : ℚ)⁻¹ else 10/1) := by
  have hb : proximity (10/1) ((50 : ℚ) / (100 : ℚ)) < u32MAX := by
    norm_num [proximity, u32MAX]
  have h := final_ratio_forced (50, 100) (10/1) hb
  exact ⟨hb, h.1, h.2.2⟩

/-- A 4-channel pixel: red, green, blue, alpha, as in the Rgba u8 values
of the image crate. -/
structure Rgba where
  r : ℕ
  g : ℕ
  b : ℕ
  a : ℕ
deriving DecidableEq

/-- The border fill pixel of add_border, src/process.rs line 94. -/
def whitePixel : Rgba := ⟨255, 255, 255, 255⟩

/-- A rectangular pixel grid with its dimensions. -/
structure Img where
  width : ℕ
  height : ℕ
  pix : ℕ → ℕ → Rgba

/-- Modelled from the spec: the overlay collaborator of the external image
crate composites the source pixel over the background with standard
source-over alpha blending; the claims proved here depend only on the fact
that a fully opaque source pixel is copied unchanged. -/
def blendOver (src dst : Rgba) : Rgba :=
  ⟨(src.r * src.a + dst.r * (255 - src.a)) / 255,
    (src.g * src.a + dst.g * (255 - src.a)) / 255,
    (src.b * src.a + dst.b * (255 - src.a)) / 255,
    src.a + dst.a * (255 - src.a) / 255⟩

/-- The pixel function of the buffer built by add_border, src/process.rs
lines 94 to 97: the background is the opaque white fill, and the original
image is blended over it at the centering offsets of lines 95 and 96. -/
def add_border_pix (image : Img) (width height x y : ℕ) : Rgba :=
  if (width - image.width) / 2 ≤ x ∧ x < (width - image.width) / 2 + image.width ∧
      (height - image.height) / 2 ≤ y ∧
      y < (height - image.height) / 2 + image.height then
    blendOver (image.pix (x - (width - image.width) / 2)
      (y - (height - image.height) / 2)) whitePixel
  else whitePixel

/-- Embedding of add_border from src/process.rs lines 92 to 99.  The u32
subtractions width minus image width and height minus image height are
checked arithmetic: when the final dimensions are smaller than the image
the Rust code panics, modelled by none. -/
def add_border (image : Img) (final_dims : ℕ × ℕ) : Option Img :=
  if image.width ≤ final_dims.1 ∧ image.height ≤ final_dims.2 then
    some ⟨final_dims.1, final_dims.2,
      add_border_pix image final_dims.1 final_dims.2⟩
  else none

/-- Claim C5: under the no-underflow precondition, add_border yields the
buffer of the final dimensions whose pixels outside the centered copy all
carry the opaque white border color, whose pixels inside it are the
original image blended over the border at offsets given by truncating
halves of the dimension differences, with the extra pixel of an odd
difference landing on the trailing side; fully opaque source pixels are
copied unchanged, and the input image is untouched (the embedding is
pure, mirroring the fact that the Rust code only reads the input). -/
theorem add_border_spec (image : Img) (W H : ℕ)
    (hw : image.width ≤ W) (hh : image.height ≤ H) :
    add_border image (W, H) = some ⟨W, H, add_border_pix image W H⟩ ∧
    (∀ x y,
      (x < (W - image.width) / 2 ∨ (W - image.width) / 2 + image.width ≤ x ∨
        y < (H - image.height) / 2 ∨
        (H - image.height) / 2 + image.height ≤ y) →
      add_border_pix image W H x y = whitePixel) ∧
    (∀ dx dy, dx < image.width → dy < image.height →
      add_border_pix image W H ((W - image.width) / 2 + dx)
        ((H - image.height) / 2 + dy) = blendOver (image.pix dx dy) whitePixel) ∧
    (W - image.width) - (W - image.width) / 2 =
      (W - image.width) / 2 + (W - image.width) % 2 ∧
    (H - image.height) - (H - image.height) / 2 =
      (H - image.height) / 2 + (H - image.height) % 2 ∧
    ∀ p : Rgba, p.a = 255 → blendOver p whitePixel = p := by
  refine ⟨by rw [add_border, if_pos ⟨hw, hh⟩], ?_, ?_, by omega, by omega, ?_⟩
  · intro x y hxy
    rw [add_border_pix, if_neg (by omega)]
  · intro dx dy hdx hdy
    rw [add_border_pix, if_pos (by omega)]
    congr 2 <;> omega
  · intro p hp
    rcases p with ⟨r, g, b, a⟩
    simp only at hp
    subst hp
    simp [blendOver, whitePixel, Rgba.mk.injEq]

/-- The 2 by 2 fully opaque black base image of the Rust unit tests. -/
def base_image : Img := ⟨2, 2, fun _ _ => ⟨0, 0, 0, 255⟩⟩

/-- Witness for C5: composing the 2 by 2 opaque test image into a (2, 4)
canvas succeeds, the top-left canvas pixel is border white, and the image
pixels land unchanged one row down. -/
theorem add_border_spec_witness :
    base_image.width ≤ 2 ∧ base_image.height ≤ 4 ∧
    add_border base_image (2, 4) =
      some ⟨2, 4, add_border_pix base_image 2 4⟩ ∧
    add_border_pix base_image 2 4 0 0 = whitePixel ∧
    add_border_pix base_image 2 4 0 1 =
      blendOver (base_image.pix 0 0) whitePixel := by
  have h := add_border_spec base_image 2 4 (by norm_num [base_image])
    (by norm_num [base_image])
  refine ⟨by norm_num [base_image], by norm_num [base_image], h.1, ?_, ?_⟩
  · exact h.2.1 0 0 (by norm_num [base_image])
  · have := h.2.2.1 0 0 (by norm_num [base_image]) (by norm_num [base_image])
    simpa [base_image] using this

/-- A 50 by 100 tall opaque test image. -/
def tall_image : Img := ⟨50, 100, fun _ _ => ⟨0, 0, 0, 255⟩⟩

/-- Claim C10: add_border succeeds exactly when the final dimensions
dominate the image dimensions componentwise, so the unchecked u32 offset
subtraction never underflows on the success path; and the pipeline can
reach the failure case: forcing ratio 10 over 1 on a 50 by 100 image
without forcing orientation selects the reciprocal 1 over 10, adjust with
border 10 then derives width 11, smaller than the original 50, and
add_border panics (none) instead of returning an error. -/
theorem add_border_underflow :
    (∀ image : Img, ∀ W H : ℕ, image.width ≤ W → image.height ≤ H →
      (add_border image (W, H)).isSome = true) ∧
    (∀ image : Img, ∀ W H : ℕ, (add_border image (W, H)).isSome = true →
      image.width ≤ W ∧ image.height ≤ H) ∧
    final_ratio (50, 100) (some (10/1)) false = 1/10 ∧
    adjust (50, 100) 10 (1/10) = (11, 110) ∧
    add_border tall_image (11, 110) = none := by
  refine ⟨?_, ?_, ?_, ?_, ?_⟩
  · intro image W H hw hh
    rw [add_border, if_pos ⟨hw, hh⟩]
    rfl
  · intro image W H hsome
    rw [add_border] at hsome
    by_cases hcond : image.width ≤ W ∧ image.height ≤ H
    · exact hcond
    · rw [if_neg hcond] at hsome
      simp at hsome
  · norm_num [final_ratio, approximation, proximity, step, u32MAX]
  · norm_num [adjust]
  · norm_num [add_border, tall_image]

/-- Witness for C10: the success direction applied to the tall test image
with a dominating canvas. -/
theorem add_border_underflow_witness :
    tall_image.width ≤ 60 ∧ tall_image.height ≤ 110 ∧
    (add_border tall_image (60, 110)).isSome = true :=
  ⟨by norm_num [tall_image], by norm_num [tall_image],
    add_border_underflow.1 tall_image 60 110 (by norm_num [tall_image])
      (by norm_num [tall_image])⟩

/-- The file-name splitting rule of the Rust standard library, shared by
file_stem, extension and set_extension: a name splits at its final dot
into stem and extension, except that a name with no dot, or with a single
leading dot, has no extension. -/
def splitExt (name : List Char) : List Char × Option (List Char) :=
  match name.reverse.span (fun c => c ≠ '.') with
  | (_, []) => (name, none)
  | (extRev, _ :: stemRev) =>
      if stemRev = [] then (name, none)
      else (stemRev.reverse, some extRev.reverse)

/-- Rust Path file_stem on a file name. -/
def file_stem (name : List Char) : List Char := (splitExt name).1

/-- Rust Path extension on a file name. -/
def extension (name : List Char) : Option (List Char) := (splitExt name).2

/-- Rust PathBuf set_extension on a file name: the current extension, if
any, is replaced by the new one. -/
def set_extension (name e : List Char) : List Char :=
  if e = [] then (splitExt name).1
  else (splitExt name).1 ++ '.' :: e

/-- A file path: directory components and an optional final file name. -/
structure RPath where
  dir : List (List Char)
  file : Option (List Char)
deriving DecidableEq

/-- Embedding of file_name from src/process.rs lines 72 to 85: the new
path starts as a copy of the input, the file component is replaced by the
stem of the input with _bordered appended when the input has a stem, and
then the extension is set to the extension of the input when it has one. -/
def file_name (p : RPath) : RPath :=
  match p.file with
  | none => p
  | some name =>
      let new_stem := file_stem name ++ "_bordered".toList
      match extension name with
      | none => ⟨p.dir, some new_stem⟩
      | some e => ⟨p.dir, some (set_extension new_stem e)⟩

/-- Claim C6 failing input: on the input name a.b.jpg, with stem a.b and
extension jpg, file_name returns a.jpg rather than a.b_bordered.jpg as the
claim and the doc comment of the function state, because set_extension
re-splits the new name a.b_bordered at its final dot and discards
b_bordered as an extension; on a dot-free stem such as test.jpg the
claimed name test_bordered.jpg is produced, matching the unit test. -/
theorem file_name_dotted_stem :
    file_stem ("a.b.jpg".toList) = "a.b".toList ∧
    extension ("a.b.jpg".toList) = some ("jpg".toList) ∧
    file_name ⟨["pics".toList], some ("a.b.jpg".toList)⟩ =
      ⟨["pics".toList], some ("a.jpg".toList)⟩ ∧
    "a.jpg".toList ≠ "a.b_bordered.jpg".toList ∧
    file_name ⟨["pics".toList], some ("test.jpg".toList)⟩ =
      ⟨["pics".toList], some ("test_bordered.jpg".toList)⟩ := by
  refine ⟨by decide, by decide, by decide, by decide, by decide⟩

/-- Witness for C6: the concrete dotted-stem output evaluated. -/
theorem file_name_dotted_stem_witness :
    file_name ⟨["pics".toList], some ("a.b.jpg".toList)⟩ =
      ⟨["pics".toList], some ("a.jpg".toList)⟩ :=
  file_name_dotted_stem.2.2.1

/-- Embedding of the batch orchestrator, src/main.rs lines 32 to 45: the
input files are deduplicated into a set and each unique file is handed to
the per-file pipeline, one collected result per unique file, all collected
before any reporting.  The per-file pipeline is abstracted as the function
run, since it is built from the external decode and save collaborators;
the isolation of the tasks is reflected by batch being a pure map of run
over the deduplicated list, each entry depending on its own file alone. -/
def batch {P R : Type} [DecidableEq P] (run : P → R) (files : List P) :
    List (P × R) :=
  (files.dedup).map (fun f => (f, run f))

/-- Counting the complement of a predicate counts the rest of the list. -/
theorem countP_not_eq {P : Type} (p : P → Bool) (l : List P) :
    l.countP (fun x => ! p x) = l.length - l.countP p := by
  induction l with
  | nil => rfl
  | cons x t ih =>
      have hle := List.countP_le_length p (l := t)
      by_cases h : p x <;>
        simp [List.countP_cons, h, ih] <;> omega

/-- Claim C9: the orchestrator yields exactly one result per unique input
file, every file is paired with the outcome of its own run alone (so one
file never changes or aborts another), and when exactly one of the files
fails, the batch of N unique files yields one failure result and N minus
one success results, all available together after the whole batch. -/
theorem batch_spec {P R : Type} [DecidableEq P] (run : P → R)
    (files : List P) (isFailure : R → Bool) :
    (batch run files).length = files.dedup.length ∧
    (∀ f ∈ files, (f, run f) ∈ batch run files) ∧
    (∀ pr ∈ batch run files, pr.2 = run pr.1) ∧
    (∀ bad : P, bad ∈ files →
      (∀ f ∈ files, (isFailure (run f) = true ↔ f = bad)) →
      (batch run files).countP (fun pr => isFailure pr.2) = 1 ∧
      (batch run files).countP (fun pr => ! isFailure pr.2) =
        files.dedup.length - 1) := by
  refine ⟨List.length_map _ _, ?_, ?_, ?_⟩
  · intro f hf
    exact List.mem_map_of_mem _ (List.mem_dedup.mpr hf)
  · intro pr hpr
    rcases List.mem_map.mp hpr with ⟨f, _, hf⟩
    rw [← hf]
  · intro bad hbad hunique
    have hcount : (batch run files).countP (fun pr => isFailure pr.2) =
        files.dedup.countP (fun f => isFailure (run f)) := by
      rw [batch, List.countP_map]
      rfl
    have hconv : files.dedup.countP (fun f => isFailure (run f)) =
        files.dedup.count bad := by
      rw [List.count]
      refine List.countP_congr ?_
      intro f hf
      have hiff := hunique f (List.mem_dedup.mp hf)
      constructor
      · intro hpf
        simpa using hiff.mp hpf
      · intro hbeq
        exact hiff.mpr (by simpa using hbeq)
    have hone : files.dedup.count bad = 1 :=
      List.count_eq_one_of_mem files.nodup_dedup (List.mem_dedup.mpr hbad)
    have hfail : (batch run files).countP (fun pr => isFailure pr.2) = 1 := by
      rw [hcount, hconv, hone]
    refine ⟨hfail, ?_⟩
    have hnot : (batch run files).countP (fun pr => ! isFailure pr.2) =
        (batch run files).length -
          (batch run files).countP (fun pr => isFailure pr.2) :=
      countP_not_eq _ _
    rw [hnot, hfail, batch, List.length_map]

/-- Witness for C9: three distinct numeric files of which exactly file 2
fails give one failure result and two success results. -/
theorem batch_spec_witness :
    ((2 : ℕ) ∈ [1, 2, 3] ∧
      ∀ f ∈ [1, 2, 3], ((fun n : ℕ => decide (n = 2)) ((fun n : ℕ => n) f)
        = true ↔ f = 2)) ∧
    (batch (fun n : ℕ => n) [1, 2, 3]).countP
      (fun pr => (fun n : ℕ => decide (n = 2)) pr.2) = 1 ∧
    (batch (fun n : ℕ => n) [1, 2, 3]).countP
      (fun pr => ! (fun n : ℕ => decide (n = 2)) pr.2) =
      ([1, 2, 3] : List ℕ).dedup.length - 1 := by
  have h2 : (2 : ℕ) ∈ [1, 2, 3] := by decide
  have hu : ∀ f ∈ [1, 2, 3], ((fun n : ℕ => decide (n = 2))
      ((fun n : ℕ => n) f) = true ↔ f = 2) := by decide
  exact ⟨⟨h2, hu⟩,
    (batch_spec (fun n : ℕ => n) [1, 2, 3] (fun n => decide (n = 2))).2.2.2
      2 h2 hu⟩

/-- Claim C4 (refuted by the binary): the library proximity of
src/process.rs is exact, giving precisely one third for candidate 2 over 3
against raw ratio 1; no dyadic rational, hence no binary floating-point
value, equals one third, so the f32 proximity of src/main.rs lines 62 to
64 cannot return this exact value on the same input, and the
candidate-selection path of the binary is not exact rational arithmetic. -/
theorem proximity_exact_not_dyadic :
    proximity (2/3) (1/1) = 1/3 ∧
    ∀ (m : ℤ) (e : ℕ), (m : ℚ) / 2 ^ e ≠ 1/3 := by
  constructor
  · norm_num [proximity]
  · intro m e h
    have h3 : (m : ℚ) * 3 = 2 ^ e := by
      field_simp at h
      linarith
    have hz : m * 3 = 2 ^ e := by exact_mod_cast h3
    have hdvd : (3 : ℤ) ∣ 2 ^ e := ⟨m, by linarith⟩
    have h32 : (3 : ℤ) ∣ 2 := Int.prime_three.dvd_of_dvd_pow hdvd
    norm_num at h32

/-- Witness for C4: one third differs from the dyadic value 5 over 16. -/
theorem proximity_exact_not_dyadic_witness :
    proximity (2/3) (1/1) = 1/3 ∧ ((5 : ℤ) : ℚ) / 2 ^ 4 ≠ 1/3 :=
  ⟨proximity_exact_not_dyadic.1, proximity_exact_not_dyadic.2 5 4⟩

end Bpg
